import Mathlib

/-
Verification development for the `ratli` Hapi rate-limiting plugin
(`src/index.ts`).  The TypeScript source is shallowly embedded below:
timestamps are naturals (milliseconds), quota counters are integers,
the `Map<string, RateLimitEntry>` is an insertion-ordered association
list, and JavaScript truthiness (empty string / zero are falsy) is made
explicit wherever the source relies on it.
-/

/-! ## Character-level string helpers (model of the JS string operations) -/

/-- Split a character list at every occurrence of the separator, mirroring
JavaScript `String.prototype.split` with a single-character separator
(`"".split(c)` yields `[""]`, hence the base case `[[]]`). -/
def splitOnChar (c : Char) : List Char → List (List Char)
  | [] => [[]]
  | x :: xs =>
    match splitOnChar c xs with
    | [] => [[]]
    | h :: t => if x == c then [] :: h :: t else (x :: h) :: t

/-- Strip leading and trailing whitespace, mirroring `String.prototype.trim`
on the ASCII whitespace the plugin ever sees. -/
def trimChars (l : List Char) : List Char :=
  ((l.dropWhile Char.isWhitespace).reverse.dropWhile Char.isWhitespace).reverse

/-- Decimal value of a digit string, mirroring `Number(part)` on the
all-digit parts accepted by the IPv4 pattern. -/
def decVal (l : List Char) : Nat :=
  l.foldl (fun a c => a * 10 + (c.toNat - 48)) 0

/-- The character class `[\dA-Fa-f]` of the IPv6 pattern. -/
def isHexChar (c : Char) : Bool :=
  c.isDigit || (decide ('a' ≤ c) && decide (c ≤ 'f')) || (decide ('A' ≤ c) && decide (c ≤ 'F'))

/-! ## `isValidIp` (src/index.ts lines 268-278) -/

/-- The regex `/^\d{1,3}\.\d{1,3}\.\d{1,3}\.\d{1,3}$/`: exactly four
dot-separated parts, each one to three decimal digits. -/
def ipv4Shape (l : List Char) : Bool :=
  let parts := splitOnChar '.' l
  parts.length == 4 &&
    parts.all (fun p => decide (1 ≤ p.length) && decide (p.length ≤ 3) && p.all Char.isDigit)

/-- The regex `/^([\dA-Fa-f]{0,4}:){7}[\dA-Fa-f]{0,4}$/`: exactly eight
colon-separated groups of zero to four hex digits. -/
def ipv6Shape (l : List Char) : Bool :=
  let parts := splitOnChar ':' l
  parts.length == 8 && parts.all (fun p => decide (p.length ≤ 4) && p.all isHexChar)

/-- Model of `isValidIp` from the source: if the IPv4 pattern matches, additionally
require every `Number(part)` to lie in `[0, 255]` (the `part >= 0` half is
vacuous on digit strings and is dropped); otherwise test the IPv6 pattern. -/
def isValidIpChars (l : List Char) : Bool :=
  if ipv4Shape l then (splitOnChar '.' l).all (fun p => decide (decVal p ≤ 255))
  else ipv6Shape l

def isValidIp (s : String) : Bool := isValidIpChars s.data

/-! ## `sanitizeApiKey` (lines 280-296) -/

/-- The character class `[a-zA-Z0-9._-]`. -/
def isKeyChar (c : Char) : Bool :=
  c.isAlpha || c.isDigit || c == '.' || c == '_' || c == '-'

/-- Model of `sanitizeApiKey`: `null` on a falsy value, an empty or over-512-char
trim, or any character outside the class; otherwise the trimmed key. -/
def sanitizeApiKey (key : String) : Option String :=
  if key.data.isEmpty then none
  else
    let trimmed := trimChars key.data
    if trimmed.length == 0 || decide (512 < trimmed.length) then none
    else if !(trimmed.all isKeyChar) then none
    else some (String.mk trimmed)

/-! ## `checkLists` (lines 298-308) -/

inductive ListCheck where
  | allow
  | block
  | cont
deriving Repr, DecidableEq

def checkLists (value : String) (allowList blockList : List String) : ListCheck :=
  if decide (0 < allowList.length) && allowList.contains value then .allow
  else if decide (0 < blockList.length) && blockList.contains value then .block
  else .cont

/-! ## Storage model (`MemoryStorage`, lines 126-266)

The JS `Map` is modelled as an insertion-ordered association list:
`get` finds the first binding, `set` overwrites in place or appends,
`delete` removes the binding. -/

structure RateLimitEntry where
  points : Int
  resetTime : Nat
  blockedUntil : Option Nat
deriving Repr, DecidableEq

abbrev Storage := List (String × RateLimitEntry)

def mapGet (s : Storage) (k : String) : Option RateLimitEntry :=
  (s.find? (fun p => p.1 == k)).map Prod.snd

def mapSet (s : Storage) (k : String) (v : RateLimitEntry) : Storage :=
  if s.any (fun p => p.1 == k) then s.map (fun p => if p.1 == k then (k, v) else p)
  else s ++ [(k, v)]

def mapDelete (s : Storage) (k : String) : Storage :=
  s.filter (fun p => !(p.1 == k))

/-- The linear scan of `evictOldest` (lines 161-169): fold over the entries
in insertion order keeping the strictly smallest `resetTime` (`oldestTime`
starts at `Infinity`, modelled by the `none` accumulator). -/
def oldestStep (acc : Option (String × Nat)) (p : String × RateLimitEntry) :
    Option (String × Nat) :=
  match acc with
  | none => some (p.1, p.2.resetTime)
  | some (k, t) => if p.2.resetTime < t then some (p.1, p.2.resetTime) else some (k, t)

def oldestFold (s : Storage) : Option (String × Nat) :=
  s.foldl oldestStep none

/-- Model of `evictOldest` (lines 156-174).  The final `if (oldestKey)` is a JS
truthiness test: it is false not only for `null` but also for the empty
string, in which case nothing is deleted. -/
def evictOldest (s : Storage) : Storage :=
  if s.length == 0 then s
  else
    match oldestFold s with
    | none => s
    | some (k, _) => if k == "" then s else mapDelete s k

structure ConsumeResult where
  success : Bool
  remainingPoints : Int
  resetTime : Nat
deriving Repr, DecidableEq

/-- The guard `entry.blockedUntil && entry.blockedUntil > now` (line 199);
`blockedUntil` equal to `0` is falsy in JS. -/
def blockedGuard (b : Option Nat) (now : Nat) : Bool :=
  match b with
  | some t => t != 0 && decide (now < t)
  | none => false

/-- The guard `entry.blockedUntil && entry.blockedUntil <= now` (line 207). -/
def clearGuard (b : Option Nat) (now : Nat) : Bool :=
  match b with
  | some t => t != 0 && decide (t ≤ now)
  | none => false

/-- Model of `MemoryStorage.consume` (lines 176-234).  In-place mutations of the
entry object are modelled by writing the updated entry back with `mapSet`;
the actively-blocked branch performs no mutation and returns the storage
unchanged.  Eviction runs only when no entry exists under the key and the
table is already at capacity. -/
def consume (maxSize : Nat) (key : String) (points : Int)
    (duration blockDuration now : Nat) (s : Storage) : ConsumeResult × Storage :=
  match mapGet s key with
  | none =>
    let s1 := if decide (maxSize ≤ s.length) then evictOldest s else s
    let resetTime := now + duration * 1000
    (⟨true, points - 1, resetTime⟩, mapSet s1 key ⟨points - 1, resetTime, none⟩)
  | some entry =>
    if decide (entry.resetTime ≤ now) then
      let resetTime := now + duration * 1000
      (⟨true, points - 1, resetTime⟩, mapSet s key ⟨points - 1, resetTime, none⟩)
    else if blockedGuard entry.blockedUntil now then
      (⟨false, 0, entry.blockedUntil.getD 0⟩, s)
    else
      let entry1 := if clearGuard entry.blockedUntil now
        then { entry with blockedUntil := none } else entry
      if decide (entry1.points ≤ 0) then
        if decide (0 < blockDuration) then
          let b := now + blockDuration * 1000
          (⟨false, 0, b⟩, mapSet s key { entry1 with blockedUntil := some b })
        else
          (⟨false, 0, entry1.resetTime⟩, mapSet s key entry1)
      else
        (⟨true, entry1.points - 1, entry1.resetTime⟩,
          mapSet s key { entry1 with points := entry1.points - 1 })

structure StatusResult where
  remainingPoints : Int
  resetTime : Nat
  isBlocked : Bool
deriving Repr, DecidableEq

/-- Model of `MemoryStorage.getStatus` (lines 236-250).  The method only reads the
map, so the state component is returned untouched. -/
def getStatus (key : String) (now : Nat) (s : Storage) : Option StatusResult × Storage :=
  match mapGet s key with
  | none => (none, s)
  | some entry =>
    if decide (entry.resetTime ≤ now) then (none, s)
    else
      let isBlocked := blockedGuard entry.blockedUntil now
      let reset := if isBlocked then entry.blockedUntil.getD 0 else entry.resetTime
      (some ⟨entry.points, reset, isBlocked⟩, s)

/-- Model of `MemoryStorage.delete` (lines 252-254). -/
def deleteKey (key : String) (s : Storage) : Storage := mapDelete s key

/-- Model of `MemoryStorage.reset` (lines 256-258). -/
def resetStorage (_s : Storage) : Storage := []

/-- One public storage operation, for stating whole-run invariants. -/
inductive StorageOp where
  | consumeOp (key : String) (points : Int) (duration blockDuration now : Nat)
  | statusOp (key : String) (now : Nat)
  | deleteOp (key : String)
  | resetOp
deriving Repr

def applyOp (maxSize : Nat) (s : Storage) (op : StorageOp) : Storage :=
  match op with
  | .consumeOp k p d bd now => (consume maxSize k p d bd now s).2
  | .statusOp k now => (getStatus k now s).2
  | .deleteOp k => deleteKey k s
  | .resetOp => resetStorage s

def applyOps (maxSize : Nat) (ops : List StorageOp) (s : Storage) : Storage :=
  ops.foldl (applyOp maxSize) s

/-- Run `consume` once per timestamp in the list, threading the storage. -/
def consumeSeq (maxSize : Nat) (key : String) (points : Int)
    (duration blockDuration : Nat) (times : List Nat) (s : Storage) :
    List ConsumeResult × Storage :=
  match times with
  | [] => ([], s)
  | t :: ts =>
    let r := consume maxSize key points duration blockDuration t s
    let rest := consumeSeq maxSize key points duration blockDuration ts r.2
    (r.1 :: rest.1, rest.2)

/-! ## Identifier resolution (lines 323-405) -/

/-- The error classes: `BlockedIpError` (lines 5-10) carries the formatted message
`Blocked IP address: <ip>`; `BlockedApiKeyError` (lines 12-17) carries
no value. -/
inductive BlockedError where
  | blockedIp (message : String)
  | blockedApiKey
deriving Repr, DecidableEq

def blockedIpError (ip : String) : BlockedError :=
  .blockedIp ("Blocked IP address: " ++ ip)

/-- Split the `x-forwarded-for` header on commas, trim each candidate and
keep the syntactically valid ones (line 329). -/
def chainCandidates (ff : String) : List String :=
  (((splitOnChar ',' ff.data).map trimChars).map String.mk).filter isValidIp

/-- Model of `getClientIp` (lines 323-352).  `if (forwardedFor)` is a truthiness
test, false for the empty header value.  The loop walks the candidate
list right to left and stops at the first entry outside the trusted set;
the post-loop test falls back to the leftmost candidate when the loop
found nothing. -/
def getClientIp (remoteAddress : String) (allowXFF : Bool)
    (trustedFrom : List String) (forwardedFor : Option String) : String :=
  if allowXFF then
    match forwardedFor with
    | some ff =>
      if ff.data.isEmpty then remoteAddress
      else
        let ips := chainCandidates ff
        if decide (0 < ips.length) then
          if decide (0 < trustedFrom.length) && trustedFrom.contains remoteAddress then
            let c := match ips.reverse.find? (fun ip => !(trustedFrom.contains ip)) with
              | some ip => ip
              | none => remoteAddress
            if c == remoteAddress && decide (0 < ips.length) then ips.headD remoteAddress
            else c
          else remoteAddress
        else remoteAddress
    | none => remoteAddress
  else remoteAddress

inductive ResolveOutcome where
  | bypass
  | blocked (e : BlockedError)
  | ident (id : String)
  | unidentified
deriving Repr, DecidableEq

/-- Model of `checkIpIdentifier` (lines 354-369): allow-list hit returns `null`
(bypass), block-list hit throws `BlockedIpError`, otherwise the
identifier is `ip:` + resolved address. -/
def checkIpIdentifier (remoteAddress : String) (allowXFF : Bool)
    (trustedFrom : List String) (forwardedFor : Option String)
    (allowList blockList : List String) : ResolveOutcome :=
  let clientIp := getClientIp remoteAddress allowXFF trustedFrom forwardedFor
  match checkLists clientIp allowList blockList with
  | .allow => .bypass
  | .block => .blocked (blockedIpError clientIp)
  | .cont => .ident ("ip:" ++ clientIp)

inductive KeyOutcome where
  | bypass
  | blockKey
  | identifier (id : String)
  | unidentified
deriving Repr, DecidableEq

/-- Model of `checkKeyIdentifier` (lines 371-405).  `!apiKey` is truthiness: an
absent or empty header falls through to the query parameter, which is
itself consulted only when present and non-empty; a still-falsy value
returns `undefined` (Unidentified).  A value rejected by the sanitizer is
Unidentified when its trim is empty and Block otherwise. -/
def checkKeyIdentifier (headerVal queryVal : Option String)
    (allowList blockList : List String) : KeyOutcome :=
  let hFalsy : Bool := match headerVal with
    | none => true
    | some h => h.data.isEmpty
  let qTruthy : Bool := match queryVal with
    | none => false
    | some q => !q.data.isEmpty
  let apiKey : Option String := if hFalsy && qTruthy then queryVal else headerVal
  match apiKey with
  | none => .unidentified
  | some a =>
    if a.data.isEmpty then .unidentified
    else
      match sanitizeApiKey a with
      | none => if (trimChars a.data).isEmpty then .unidentified else .blockKey
      | some sk =>
        match checkLists sk allowList blockList with
        | .allow => .bypass
        | .block => .blockKey
        | .cont => .identifier ("key:" ++ sk)

/-! ## The 403 path of the `onPreAuth` handler (lines 483-499) -/

structure ErrorBody where
  statusCode : Nat
  error : String
  message : String
deriving Repr, DecidableEq

/-- The `catch` arm of the `onPreAuth` handler: both blocked-error classes
produce the literal `403 / Forbidden / Access forbidden` response
(lines 494-498). -/
def onPreAuthErrorResponse (e : BlockedError) : Nat × ErrorBody :=
  match e with
  | .blockedIp _ => (403, ⟨403, "Forbidden", "Access forbidden"⟩)
  | .blockedApiKey => (403, ⟨403, "Forbidden", "Access forbidden"⟩)

/-! ## Specification-side definitions

These follow the wording of the specification claims and are compared
against the code-side definitions above. -/

/-- Spec wording: walk the candidate list from the rightmost entry
leftward, returning the first entry not itself in the trusted set; if
every entry is trusted, return the leftmost entry. -/
def specResolveChain (valid trusted : List String) : Option String :=
  match valid.reverse.find? (fun ip => !(trusted.contains ip)) with
  | some ip => some ip
  | none => valid.head?

/-- A `consume` operation with a non-empty identifier (every identifier the
plugin ever builds is prefixed with `ip:` or `key:`); other operations are
unrestricted. -/
def opKeyNonempty : StorageOp → Bool
  | .consumeOp k _ _ _ _ => !(k == "")
  | _ => true

/-- Claim wording for IPv4 acceptance: four numeric parts, each between
0 and 255 (no bound on the number of digits). -/
def fourNumericParts (s : String) : Bool :=
  let parts := splitOnChar '.' s.data
  parts.length == 4 &&
    parts.all (fun p => !p.isEmpty && p.all Char.isDigit && decide (decVal p ≤ 255))

/-- Amended IPv4 acceptance: four parts of one to three decimal digits,
each with value at most 255. -/
def dottedQuadValid (s : String) : Bool :=
  let parts := splitOnChar '.' s.data
  parts.length == 4 &&
    parts.all (fun p =>
      (decide (1 ≤ p.length) && decide (p.length ≤ 3) && p.all Char.isDigit) &&
        decide (decVal p ≤ 255))

/-- Amended IPv6 acceptance: eight colon-separated groups of at most four
hex digits (groups may be empty). -/
def colonHexValid (s : String) : Bool :=
  let parts := splitOnChar ':' s.data
  parts.length == 8 && parts.all (fun p => decide (p.length ≤ 4) && p.all isHexChar)

/-- Invariant carried through every public storage operation: keys are
distinct (a JS `Map` cannot hold duplicates), no stored key is the empty
string, and the table respects the capacity bound. -/
def goodStorage (maxSize : Nat) (s : Storage) : Prop :=
  (s.map Prod.fst).Nodup ∧ (∀ k ∈ s.map Prod.fst, k ≠ "") ∧ s.length ≤ maxSize

/-! ## Helper lemmas -/

theorem getStatus_snd (key : String) (now : Nat) (s : Storage) :
    (getStatus key now s).2 = s := by
  unfold getStatus
  cases mapGet s key with
  | none => rfl
  | some e =>
    dsimp only
    split <;> rfl

theorem contains_pos {l : List String} {v : String} (h : l.contains v = true) :
    0 < l.length := by
  cases l with
  | nil => simp at h
  | cons a t => simp

/-! ## Claim theorems -/

/-- C1 (code bug): on an entry whose window has expired but whose block is
still active, `consume` takes the fresh-window branch (line 179) before the
block check (line 199): the call at `now = 2000` on an entry with
`resetTime = 1000` and `blockedUntil = 301000` succeeds and replaces the
entry, discarding the block, while the claim (and the glossary, and the
sweep that deliberately retains expired-but-blocked entries) says every
request before `blockedUntil` is denied with remaining 0 and
reset = `blockedUntil`. -/
theorem consume_ignores_active_block_after_window_expiry :
    consume 10000 "id" 1 1 300 2000 [("id", ⟨0, 1000, some 301000⟩)]
      = (⟨true, 0, 3000⟩, [("id", ⟨0, 3000, none⟩)]) := by decide

/-- C2: on a still-current window (`now < resetTime`) with an expired block
(`blockedUntil ≤ now`), an exhausted counter and a positive block duration,
`consume` re-arms a new block: it returns failure with remaining 0 and
reset `now + blockDuration * 1000`, and the stored entry has its block
replaced by the new one — no free request is granted. -/
theorem consume_rearms_block_after_expiry
    (maxSize : Nat) (key : String) (points : Int) (duration blockDuration now : Nat)
    (s : Storage) (e : RateLimitEntry) (b : Nat)
    (hget : mapGet s key = some e)
    (hb : e.blockedUntil = some b)
    (hexp : b ≤ now)
    (hwin : now < e.resetTime)
    (hpts : e.points ≤ 0)
    (hbd : 0 < blockDuration) :
    consume maxSize key points duration blockDuration now s =
      (⟨false, 0, now + blockDuration * 1000⟩,
        mapSet s key { e with blockedUntil := some (now + blockDuration * 1000) }) := by
  have hw : ¬ (e.resetTime ≤ now) := Nat.not_le.mpr hwin
  have hnl : ¬ (now < b) := Nat.not_lt.mpr hexp
  by_cases hb0 : b = 0
  · simp [consume, hget, blockedGuard, clearGuard, hb, hb0, hw, hnl, hexp, hpts, hbd]
  · simp [consume, hget, blockedGuard, clearGuard, hb, hb0, hw, hnl, hexp, hpts, hbd]

/-- C2 witness: a concrete instance of the re-arm theorem. -/
theorem consume_rearms_block_after_expiry_witness :
    consume 10 "id" 5 60 300 2000 [("id", ⟨0, 10000, some 1500⟩)] =
      (⟨false, 0, 302000⟩, mapSet [("id", ⟨0, 10000, some 1500⟩)] "id" ⟨0, 10000, some 302000⟩) :=
  consume_rearms_block_after_expiry 10 "id" 5 60 300 2000
    [("id", ⟨0, 10000, some 1500⟩)] ⟨0, 10000, some 1500⟩ 1500
    (by decide) rfl (by decide) (by decide) (by decide) (by decide)

/-- C6: `getStatus` never mutates the storage — it returns the state
unchanged, so consecutive calls agree and a later `consume` behaves exactly
as if `getStatus` had never been called (in particular an expired block
flag is never cleared by it). -/
theorem getStatus_side_effect_free (key : String) (now : Nat) (s : Storage) :
    (getStatus key now s).2 = s
    ∧ (∀ k2 n2, getStatus k2 n2 (getStatus key now s).2 = getStatus k2 n2 s)
    ∧ (∀ maxSize k2 p d bd n2,
        consume maxSize k2 p d bd n2 (getStatus key now s).2
          = consume maxSize k2 p d bd n2 s) := by
  refine ⟨getStatus_snd key now s, ?_, ?_⟩ <;> intros <;> rw [getStatus_snd]

/-- C8: a block-listed resolved address raises the blocked-IP error, the
handler answers with the fixed `403 / Forbidden / Access forbidden` body,
and that body is the same for every offending value (the value never
reaches the response). -/
theorem blocked_response_constant (v : String) (al bl : List String)
    (hbl : bl.contains v = true) (hal : al.contains v = false) :
    checkIpIdentifier v false [] none al bl = .blocked (blockedIpError v)
    ∧ onPreAuthErrorResponse (blockedIpError v)
        = (403, ⟨403, "Forbidden", "Access forbidden"⟩)
    ∧ (∀ e1 e2 : BlockedError, onPreAuthErrorResponse e1 = onPreAuthErrorResponse e2) := by
  refine ⟨?_, rfl, ?_⟩
  · have hal2 : v ∉ al := by simpa using hal
    have hbl2 : v ∈ bl := by simpa using hbl
    simp [checkIpIdentifier, getClientIp, checkLists, hal2, hbl2, contains_pos hbl]
  · intro e1 e2
    cases e1 <;> cases e2 <;> rfl

/-- C8 witness: the fixed 403 response at a concrete block-listed address. -/
theorem blocked_response_constant_witness :
    checkIpIdentifier "9.9.9.9" false [] none [] ["9.9.9.9"]
      = .blocked (blockedIpError "9.9.9.9") :=
  (blocked_response_constant "9.9.9.9" [] ["9.9.9.9"] (by decide) (by decide)).1

/-- C5: with the forwarded-chain feature enabled and the peer in the
trusted set, the resolved address is exactly the claim's walk — split the
header on commas, trim, keep the valid entries, take the rightmost-first
entry outside the trusted set, and fall back to the leftmost entry when
every entry is trusted; on the concrete chain of the specification the
resolved identifier is `ip:192.168.1.50`. -/
theorem getClientIp_follows_chain_walk
    (remote ff : String) (trusted : List String)
    (hff : ff.data ≠ [])
    (htr : trusted.contains remote = true)
    (hne : chainCandidates ff ≠ []) :
    specResolveChain (chainCandidates ff) trusted
        = some (getClientIp remote true trusted (some ff))
    ∧ checkIpIdentifier "10.0.0.3" true ["10.0.0.2", "10.0.0.3"]
        (some "192.168.1.50, 10.0.0.2, 10.0.0.3") [] [] = .ident "ip:192.168.1.50" := by
  refine ⟨?_, by decide⟩
  have hip0 : 0 < (chainCandidates ff).length := List.length_pos.mpr hne
  have hffe : ff.data.isEmpty = false := by
    cases hd : ff.data with
    | nil => exact absurd hd hff
    | cons a t => rfl
  have hlent : decide (0 < trusted.length) = true := decide_eq_true (contains_pos htr)
  have hipt : decide (0 < (chainCandidates ff).length) = true := decide_eq_true hip0
  cases hf : (chainCandidates ff).reverse.find? (fun ip => !(trusted.contains ip)) with
  | some ip =>
    have hipc : trusted.contains ip = false := by
      have h := List.find?_some hf
      simpa using h
    have hne2 : ip ≠ remote := by
      intro h
      rw [h, htr] at hipc
      exact absurd hipc (by decide)
    have hbe : (ip == remote) = false := beq_eq_false_iff_ne.mpr hne2
    unfold getClientIp specResolveChain
    dsimp only
    rw [hffe, hipt, hlent, htr, hf, hbe]
    rfl
  | none =>
    unfold getClientIp specResolveChain
    dsimp only
    rw [hffe, hipt, hlent, htr, hf, beq_self_eq_true]
    cases hc : chainCandidates ff with
    | nil => exact absurd hc hne
    | cons a t => rfl

/-- C5 witness: the concrete chain of the specification. -/
theorem getClientIp_follows_chain_walk_witness :
    specResolveChain (chainCandidates "192.168.1.50, 10.0.0.2, 10.0.0.3")
        ["10.0.0.2", "10.0.0.3"]
      = some (getClientIp "10.0.0.3" true ["10.0.0.2", "10.0.0.3"]
          (some "192.168.1.50, 10.0.0.2, 10.0.0.3")) :=
  (getClientIp_follows_chain_walk "10.0.0.3" "192.168.1.50, 10.0.0.2, 10.0.0.3"
    ["10.0.0.2", "10.0.0.3"] (by decide) (by decide) (by decide)).1

/-- C7: key-channel resolution.  A missing or empty key value (header and
query) and a whitespace-only value yield Unidentified; a present value is
trimmed and yields Block exactly when the trim exceeds 512 characters or
contains a character outside letters, digits, `.`, `_`, `-`; otherwise
(not allow- or block-listed) it yields `key:` plus the trimmed value. -/
theorem checkKey_sanitization
    (v : String) (q : Option String) (al bl : List String)
    (hv : v.data ≠ [])
    (hal : al.contains (String.mk (trimChars v.data)) = false)
    (hbl : bl.contains (String.mk (trimChars v.data)) = false) :
    checkKeyIdentifier none none al bl = .unidentified
    ∧ checkKeyIdentifier (some "") (some "") al bl = .unidentified
    ∧ (trimChars v.data = [] → checkKeyIdentifier (some v) q al bl = .unidentified)
    ∧ (trimChars v.data ≠ [] →
        ((checkKeyIdentifier (some v) q al bl = .blockKey)
          ↔ (512 < (trimChars v.data).length ∨ (trimChars v.data).all isKeyChar = false)))
    ∧ (trimChars v.data ≠ [] → (trimChars v.data).length ≤ 512 →
        (trimChars v.data).all isKeyChar = true →
        checkKeyIdentifier (some v) q al bl
          = .identifier ("key:" ++ String.mk (trimChars v.data))) := by
  have hvE : v.data.isEmpty = false := by
    cases hd : v.data with
    | nil => exact absurd hd hv
    | cons a t => rfl
  have halm : String.mk (trimChars v.data) ∉ al := by simpa using hal
  have hblm : String.mk (trimChars v.data) ∉ bl := by simpa using hbl
  refine ⟨rfl, rfl, ?_, ?_, ?_⟩
  · intro htrim
    simp [checkKeyIdentifier, sanitizeApiKey, hvE, htrim]
  · intro hne
    have hne' : (trimChars v.data).length ≠ 0 := by
      simpa [List.length_eq_zero] using hne
    by_cases h1 : 512 < (trimChars v.data).length
    · simp [checkKeyIdentifier, sanitizeApiKey, hvE, hne, hne', h1]
    · by_cases h2 : (trimChars v.data).all isKeyChar
      · simp [checkKeyIdentifier, sanitizeApiKey, checkLists, hvE, hne, hne', h1, h2,
          halm, hblm]
      · simp [checkKeyIdentifier, sanitizeApiKey, hvE, hne, hne', h1,
          Bool.eq_false_iff.mpr h2]
  · intro hne hlen hall
    have hne' : (trimChars v.data).length ≠ 0 := by
      simpa [List.length_eq_zero] using hne
    have h1 : ¬ (512 < (trimChars v.data).length) := Nat.not_lt.mpr hlen
    simp [checkKeyIdentifier, sanitizeApiKey, checkLists, hvE, hne, hne', h1, hall,
      halm, hblm]

/-- C7 witness: a concrete padded key resolves to its trimmed identifier. -/
theorem checkKey_sanitization_witness :
    checkKeyIdentifier (some "  abc  ") none [] []
      = .identifier ("key:" ++ String.mk (trimChars "  abc  ".data)) :=
  ((checkKey_sanitization "  abc  " none [] [] (by decide) (by decide)
      (by decide)).2.2.2.2) (by decide) (by decide) (by decide)

theorem consumeSeq_append (maxSize : Nat) (key : String) (pts : Int) (D bd : Nat)
    (l1 l2 : List Nat) (s : Storage) :
    consumeSeq maxSize key pts D bd (l1 ++ l2) s
      = ((consumeSeq maxSize key pts D bd l1 s).1
           ++ (consumeSeq maxSize key pts D bd l2
                (consumeSeq maxSize key pts D bd l1 s).2).1,
         (consumeSeq maxSize key pts D bd l2
           (consumeSeq maxSize key pts D bd l1 s).2).2) := by
  induction l1 generalizing s with
  | nil => simp [consumeSeq]
  | cons t ts ih => simp [consumeSeq, ih]

theorem consume_single_success (maxSize : Nat) (key : String) (pts p : Int)
    (D bd R t : Nat) (ht : t < R) (hp : 0 < p) :
    consume maxSize key pts D bd t [(key, ⟨p, R, none⟩)]
      = (⟨true, p - 1, R⟩, [(key, ⟨p - 1, R, none⟩)]) := by
  have hw : ¬ (R ≤ t) := Nat.not_le.mpr ht
  have hpp : ¬ (p ≤ 0) := by omega
  simp [consume, mapGet, mapSet, blockedGuard, clearGuard, hw, hpp]

theorem consumeSeq_window_run (maxSize : Nat) (key : String) (pts : Int)
    (D bd R : Nat) (ts : List Nat) :
    ∀ (p : Int), (ts.length : Int) ≤ p → (∀ t ∈ ts, t < R) →
      (consumeSeq maxSize key pts D bd ts [(key, ⟨p, R, none⟩)]).1.all (·.success) = true
      ∧ (consumeSeq maxSize key pts D bd ts [(key, ⟨p, R, none⟩)]).1.length = ts.length
      ∧ (consumeSeq maxSize key pts D bd ts [(key, ⟨p, R, none⟩)]).2
          = [(key, ⟨p - ts.length, R, none⟩)] := by
  induction ts with
  | nil =>
    intro p _ _
    refine ⟨rfl, rfl, ?_⟩
    simp [consumeSeq]
  | cons t ts ih =>
    intro p hp hts
    have ht : t < R := hts t (List.mem_cons_self t ts)
    have hp0 : 0 < p := by
      push_cast [List.length_cons] at hp
      omega
    have hstep := consume_single_success maxSize key pts (p := p) D bd R t ht hp0
    have hrest := ih (p - 1) (by push_cast [List.length_cons] at hp ⊢; omega)
      (fun x hx => hts x (List.mem_cons_of_mem t hx))
    have harith : p - 1 - (ts.length : Int) = p - ((t :: ts).length : Int) := by
      push_cast [List.length_cons]
      ring
    refine ⟨?_, ?_, ?_⟩
    · simp [consumeSeq, hstep, hrest.1]
    · simp [consumeSeq, hstep, hrest.2.1]
    · simp only [consumeSeq, hstep]
      rw [hrest.2.2, harith]

/-- C3: for quota `points = N ≥ 1` and duration `D`, a single identifier
starting with no entry: the first `N` `consume` calls whose timestamps all
precede the `windowResetAt` created by the first call succeed, and the
`(N+1)`-th call inside the same window fails. -/
theorem consume_quota_first_N_then_fail
    (maxSize N D bd t0 tN : Nat) (key : String) (ts : List Nat)
    (hN : 1 ≤ N)
    (hlen : ts.length = N - 1)
    (hts : ∀ t ∈ ts, t < t0 + D * 1000)
    (htN : tN < t0 + D * 1000) :
    ∃ rs r, (consumeSeq maxSize key (N : Int) D bd (t0 :: (ts ++ [tN])) []).1 = rs ++ [r]
      ∧ rs.length = N
      ∧ rs.all (·.success) = true
      ∧ r.success = false := by
  have hfirst : consume maxSize key (N : Int) D bd t0 [] =
      (⟨true, (N : Int) - 1, t0 + D * 1000⟩,
        [(key, ⟨(N : Int) - 1, t0 + D * 1000, none⟩)]) := by
    simp [consume, mapGet, mapSet, evictOldest]
  have hrun := consumeSeq_window_run maxSize key (N : Int) D bd (t0 + D * 1000) ts
      ((N : Int) - 1) (by rw [hlen]; omega) hts
  have hpts0 : (N : Int) - 1 - (ts.length : Int) = 0 := by
    rw [hlen]; omega
  have hlast : (consume maxSize key (N : Int) D bd tN
      [(key, ⟨0, t0 + D * 1000, none⟩)]).1.success = false := by
    have hw : ¬ (t0 + D * 1000 ≤ tN) := Nat.not_le.mpr htN
    rcases Nat.eq_zero_or_pos bd with hbd | hbd
    · simp [consume, mapGet, blockedGuard, clearGuard, hw, hbd]
    · simp [consume, mapGet, blockedGuard, clearGuard, hw, hbd]
  refine ⟨⟨true, (N : Int) - 1, t0 + D * 1000⟩ ::
      (consumeSeq maxSize key (N : Int) D bd ts
        [(key, ⟨(N : Int) - 1, t0 + D * 1000, none⟩)]).1,
    (consume maxSize key (N : Int) D bd tN [(key, ⟨0, t0 + D * 1000, none⟩)]).1,
    ?_, ?_, ?_, hlast⟩
  · simp only [consumeSeq, hfirst]
    rw [consumeSeq_append, hrun.2.2, hpts0]
    simp [consumeSeq]
  · simp only [List.length_cons, hrun.2.1, hlen]
    omega
  · simp only [List.all_cons, hrun.1, Bool.and_true]

/-- C3 witness: quota 2, three calls inside one window — the first two
succeed and the third fails. -/
theorem consume_quota_first_N_then_fail_witness :
    ∃ rs r, (consumeSeq 10 "id" ((2 : Nat) : Int) 1 0 (0 :: ([1] ++ [2])) []).1 = rs ++ [r]
      ∧ rs.length = 2
      ∧ rs.all (·.success) = true
      ∧ r.success = false :=
  consume_quota_first_N_then_fail 10 2 1 0 0 2 "id" [1] (by decide) (by decide)
    (by decide) (by decide)

theorem oldestStep_spec (acc : Option (String × Nat)) (p : String × RateLimitEntry) :
    ∃ k1 t1, oldestStep acc p = some (k1, t1)
      ∧ ((k1, t1) = (p.1, p.2.resetTime) ∨ acc = some (k1, t1))
      ∧ t1 ≤ p.2.resetTime
      ∧ (∀ k t, acc = some (k, t) → t1 ≤ t) := by
  cases acc with
  | none =>
    refine ⟨p.1, p.2.resetTime, rfl, Or.inl rfl, le_refl _, ?_⟩
    intro k t h
    cases h
  | some kt =>
    rcases kt with ⟨k, t⟩
    by_cases hlt : p.2.resetTime < t
    · refine ⟨p.1, p.2.resetTime, by simp [oldestStep, hlt], Or.inl rfl, le_refl _, ?_⟩
      intro k2 t2 h
      cases h
      exact Nat.le_of_lt hlt
    · refine ⟨k, t, by simp [oldestStep, hlt], Or.inr rfl, Nat.le_of_not_lt hlt, ?_⟩
      intro k2 t2 h
      cases h
      exact le_refl _

theorem oldestFold_go_spec (l : List (String × RateLimitEntry)) :
    ∀ (acc : Option (String × Nat)) (k0 : String) (t0 : Nat),
      l.foldl oldestStep acc = some (k0, t0) →
      ((∃ e0, (k0, e0) ∈ l ∧ e0.resetTime = t0) ∨ acc = some (k0, t0))
      ∧ (∀ p ∈ l, t0 ≤ p.2.resetTime)
      ∧ (∀ k t, acc = some (k, t) → t0 ≤ t) := by
  induction l with
  | nil =>
    intro acc k0 t0 h
    rw [List.foldl_nil] at h
    refine ⟨Or.inr h, by simp, ?_⟩
    intro k t hkt
    rw [h] at hkt
    cases hkt
    exact le_refl _
  | cons p l ih =>
    intro acc k0 t0 h
    rw [List.foldl_cons] at h
    obtain ⟨hmem, hmin, hacc⟩ := ih (oldestStep acc p) k0 t0 h
    obtain ⟨k1, t1, hs1, hcase, hle, hmono⟩ := oldestStep_spec acc p
    have ht0t1 : t0 ≤ t1 := hacc k1 t1 hs1
    refine ⟨?_, ?_, ?_⟩
    · rcases hmem with h1 | h1
      · obtain ⟨e0, he0, ht⟩ := h1
        exact Or.inl ⟨e0, List.mem_cons_of_mem p he0, ht⟩
      · rw [hs1] at h1
        injection h1 with h1
        cases h1
        rcases hcase with h2 | h2
        · have hk : k0 = p.1 := congrArg Prod.fst h2
          have htt : t0 = p.2.resetTime := congrArg Prod.snd h2
          subst hk
          exact Or.inl ⟨p.2, List.mem_cons_self p l, htt.symm⟩
        · exact Or.inr h2
    · intro q hq
      rcases List.mem_cons.mp hq with h1 | h1
      · rw [h1]
        exact le_trans ht0t1 hle
      · exact hmin q h1
    · intro k t hkt
      exact le_trans ht0t1 (hmono k t hkt)

theorem oldestFold_spec (s : Storage) (k0 : String) (t0 : Nat)
    (h : oldestFold s = some (k0, t0)) :
    (∃ e0, (k0, e0) ∈ s ∧ e0.resetTime = t0) ∧ (∀ p ∈ s, t0 ≤ p.2.resetTime) := by
  obtain ⟨hmem, hmin, _⟩ := oldestFold_go_spec s none k0 t0 (by simpa [oldestFold] using h)
  rcases hmem with h1 | h1
  · exact ⟨h1, hmin⟩
  · cases h1

theorem oldestFold_go_isSome (l : List (String × RateLimitEntry)) :
    ∀ (x : String × Nat), ∃ y, l.foldl oldestStep (some x) = some y := by
  induction l with
  | nil => intro x; exact ⟨x, rfl⟩
  | cons p l ih =>
    intro x
    rcases x with ⟨k, t⟩
    rw [List.foldl_cons]
    by_cases hlt : p.2.resetTime < t
    · simpa [oldestStep, hlt] using ih (p.1, p.2.resetTime)
    · simpa [oldestStep, hlt] using ih (k, t)

theorem oldestFold_of_ne_nil (s : Storage) (hs : s ≠ []) :
    ∃ kt, oldestFold s = some kt := by
  cases s with
  | nil => exact absurd rfl hs
  | cons p l =>
    simpa [oldestFold, List.foldl_cons, oldestStep] using oldestFold_go_isSome l (p.1, p.2.resetTime)

theorem mapGet_eq_none_iff (s : Storage) (k : String) :
    mapGet s k = none ↔ ∀ p ∈ s, p.1 ≠ k := by
  simp [mapGet, List.find?_eq_none]

theorem mapGet_some_any (s : Storage) (k : String) (e : RateLimitEntry)
    (h : mapGet s k = some e) : s.any (fun p => p.1 == k) = true := by
  unfold mapGet at h
  cases hf : s.find? (fun p => p.1 == k) with
  | none => rw [hf] at h; cases h
  | some q =>
    have hq := List.find?_some hf
    have hm := List.mem_of_find?_eq_some hf
    exact List.any_eq_true.mpr ⟨q, hm, hq⟩

theorem mapGet_map_replace (l : Storage) (k1 k2 : String) (v : RateLimitEntry)
    (h : k2 ≠ k1) :
    mapGet (l.map (fun p => if p.1 == k1 then (k1, v) else p)) k2 = mapGet l k2 := by
  induction l with
  | nil => rfl
  | cons p l ih =>
    simp only [List.map_cons]
    by_cases hp : p.1 = k1
    · have h1 : (p.1 == k1) = true := beq_iff_eq.mpr hp
      have h2 : (k1 == k2) = false := beq_eq_false_iff_ne.mpr (Ne.symm h)
      have h3 : (p.1 == k2) = false := by rw [hp]; exact h2
      simp only [mapGet, h1, if_true, List.find?_cons, h2, h3] at ih ⊢
      exact ih
    · have h1 : (p.1 == k1) = false := beq_eq_false_iff_ne.mpr hp
      by_cases hq : p.1 = k2
      · have h2 : (p.1 == k2) = true := beq_iff_eq.mpr hq
        simp [mapGet, List.find?_cons, h1, h2]
      · have h2 : (p.1 == k2) = false := beq_eq_false_iff_ne.mpr hq
        simp only [mapGet, h1, Bool.false_eq_true, if_false, List.find?_cons, h2] at ih ⊢
        exact ih

theorem mapGet_append_single_ne (l : Storage) (k1 k2 : String) (v : RateLimitEntry)
    (h : k2 ≠ k1) : mapGet (l ++ [(k1, v)]) k2 = mapGet l k2 := by
  induction l with
  | nil =>
    simp [mapGet, List.find?_cons, beq_eq_false_iff_ne.mpr (Ne.symm h)]
  | cons p l ih =>
    by_cases hq : p.1 = k2
    · have h2 : (p.1 == k2) = true := beq_iff_eq.mpr hq
      simp [mapGet, List.find?_cons, h2]
    · have h2 : (p.1 == k2) = false := beq_eq_false_iff_ne.mpr hq
      simp only [mapGet, List.cons_append, List.find?_cons, h2, Bool.false_eq_true,
        if_false] at ih ⊢
      exact ih

theorem mapGet_mapSet_ne (s : Storage) (k1 k2 : String) (v : RateLimitEntry)
    (h : k2 ≠ k1) : mapGet (mapSet s k1 v) k2 = mapGet s k2 := by
  unfold mapSet
  by_cases ha : s.any (fun p => p.1 == k1) = true
  · rw [ha]
    exact mapGet_map_replace s k1 k2 v h
  · rw [Bool.not_eq_true] at ha
    rw [ha]
    exact mapGet_append_single_ne s k1 k2 v h

theorem mapSet_absent (s : Storage) (k : String) (v : RateLimitEntry)
    (h : ∀ p ∈ s, p.1 ≠ k) : mapSet s k v = s ++ [(k, v)] := by
  unfold mapSet
  have ha : s.any (fun p => p.1 == k) = false := by
    rw [List.any_eq_false]
    intro p hp
    simp [h p hp]
  rw [ha]
  rfl

theorem mapSet_present_keys (s : Storage) (k : String) (v : RateLimitEntry)
    (ha : s.any (fun p => p.1 == k) = true) :
    (mapSet s k v).map Prod.fst = s.map Prod.fst
    ∧ (mapSet s k v).length = s.length := by
  unfold mapSet
  rw [ha]
  rw [if_pos rfl]
  constructor
  · rw [List.map_map]
    apply List.map_congr_left
    intro p _
    by_cases h : p.1 = k
    · simp [h]
    · simp [h]
  · exact List.length_map s _

theorem mapDelete_eq_self (s : Storage) (k : String) (h : ∀ p ∈ s, p.1 ≠ k) :
    mapDelete s k = s := by
  unfold mapDelete
  rw [List.filter_eq_self]
  intro p hp
  simp [h p hp]

theorem mapDelete_length_of_mem (s : Storage) (k0 : String) (e0 : RateLimitEntry)
    (hnd : (s.map Prod.fst).Nodup) (hm : (k0, e0) ∈ s) :
    (mapDelete s k0).length + 1 = s.length := by
  induction s with
  | nil => cases hm
  | cons p l ih =>
    rw [List.map_cons, List.nodup_cons] at hnd
    rcases List.mem_cons.mp hm with h | h
    · have hp : p.1 = k0 := by rw [← h]
      have hl : ∀ q ∈ l, q.1 ≠ k0 := by
        intro q hq hqk
        apply hnd.1
        rw [hp, ← hqk]
        exact List.mem_map_of_mem Prod.fst hq
      unfold mapDelete
      rw [List.filter_cons]
      have : (!(p.1 == k0)) = false := by simp [hp]
      rw [this]
      simp only [Bool.false_eq_true, if_false]
      have := mapDelete_eq_self l k0 hl
      unfold mapDelete at this
      rw [this, List.length_cons]
    · have hp : p.1 ≠ k0 := by
        intro hpk
        have hk0 : k0 ∈ l.map Prod.fst :=
          List.mem_map_of_mem Prod.fst h
        rw [hpk] at hnd
        exact hnd.1 hk0
      unfold mapDelete
      rw [List.filter_cons]
      have hcond : (!(p.1 == k0)) = true := by simp [hp]
      rw [hcond]
      simp only [if_true, List.length_cons]
      have := ih hnd.2 h
      unfold mapDelete at this
      omega

theorem keys_mapDelete_sublist (s : Storage) (k : String) :
    List.Sublist ((mapDelete s k).map Prod.fst) (s.map Prod.fst) :=
  List.Sublist.map Prod.fst (List.filter_sublist s)

theorem consume_some_state (maxSize : Nat) (key : String) (points : Int)
    (d bd now : Nat) (s : Storage) (e : RateLimitEntry)
    (hget : mapGet s key = some e) :
    (consume maxSize key points d bd now s).2 = s
    ∨ ∃ v, (consume maxSize key points d bd now s).2 = mapSet s key v := by
  unfold consume
  rw [hget]
  dsimp only
  repeat' split
  all_goals first
    | exact Or.inl rfl
    | exact Or.inr ⟨_, rfl⟩

theorem evictOldest_eq_delete (s : Storage) (k0 : String) (t0 : Nat)
    (hsne : s ≠ []) (hfold : oldestFold s = some (k0, t0)) (hk0 : k0 ≠ "") :
    evictOldest s = mapDelete s k0 := by
  unfold evictOldest
  have hlen0 : (s.length == 0) = false := by
    simp [List.length_eq_zero, hsne]
  rw [hlen0]
  simp only [Bool.false_eq_true, if_false]
  rw [hfold]
  dsimp only
  rw [beq_eq_false_iff_ne.mpr hk0]
  simp only [Bool.false_eq_true, if_false]

/-- C4 counterexample: the table holds one entry under the empty-string key
and is at capacity (`maxSize = 1`); inserting the brand-new identifier `x`
evicts nothing — `if (oldestKey)` in `evictOldest` is falsy on the empty
string — so both entries remain, contradicting the claim that exactly one
entry (the minimal one) is removed before the insertion. -/
theorem consume_eviction_skips_empty_key :
    (consume 1 "x" 3 1 0 50 [("", ⟨5, 100, none⟩)]).2
      = [("", ⟨5, 100, none⟩), ("x", ⟨2, 1050, none⟩)] := by decide

/-- C4 (amended): when a `consume` inserts a brand-new identifier into a
table at or above capacity and the minimal-`resetTime` key is not the
empty string, the resulting storage is exactly the old one with that
minimal entry deleted and the fresh entry appended (so, with distinct
keys, exactly one entry is removed: the table size is unchanged); and a
`consume` on an identifier that already has an entry — expired or not —
never touches any other key. -/
theorem consume_eviction_amended
    (maxSize : Nat) (key : String) (points : Int) (duration blockDuration now : Nat)
    (s : Storage) :
    (∀ k0 t0, mapGet s key = none → maxSize ≤ s.length →
        oldestFold s = some (k0, t0) → k0 ≠ "" →
        ((consume maxSize key points duration blockDuration now s).2
            = mapSet (mapDelete s k0) key ⟨points - 1, now + duration * 1000, none⟩
          ∧ (∃ e0, (k0, e0) ∈ s ∧ e0.resetTime = t0)
          ∧ (∀ p ∈ s, t0 ≤ p.2.resetTime)
          ∧ ((s.map Prod.fst).Nodup →
              (consume maxSize key points duration blockDuration now s).2.length
                = s.length)))
    ∧ (∀ e, mapGet s key = some e → ∀ k2, k2 ≠ key →
        mapGet (consume maxSize key points duration blockDuration now s).2 k2
          = mapGet s k2) := by
  constructor
  · intro k0 t0 hget hcap hfold hk0
    have hspec := oldestFold_spec s k0 t0 hfold
    have hsne : s ≠ [] := by
      intro hnil
      rw [hnil] at hfold
      simp [oldestFold] at hfold
    have hevict := evictOldest_eq_delete s k0 t0 hsne hfold hk0
    have hstate : (consume maxSize key points duration blockDuration now s).2
        = mapSet (mapDelete s k0) key ⟨points - 1, now + duration * 1000, none⟩ := by
      unfold consume
      rw [hget]
      dsimp only
      rw [decide_eq_true hcap, if_pos rfl, hevict]
    refine ⟨hstate, hspec.1, hspec.2, ?_⟩
    intro hnd
    obtain ⟨e0, he0, _⟩ := hspec.1
    have hkeys : ∀ p ∈ s, p.1 ≠ key := (mapGet_eq_none_iff s key).mp hget
    have hkeysd : ∀ p ∈ mapDelete s k0, p.1 ≠ key := by
      intro p hp
      exact hkeys p (List.mem_of_mem_filter hp)
    rw [hstate, mapSet_absent _ _ _ hkeysd, List.length_append]
    have hdel := mapDelete_length_of_mem s k0 e0 hnd he0
    simp only [List.length_cons, List.length_nil]
    omega
  · intro e hget k2 hk2
    rcases consume_some_state maxSize key points duration blockDuration now s e hget
      with h | ⟨v, h⟩
    · rw [h]
    · rw [h]
      exact mapGet_mapSet_ne s key k2 v hk2

/-- C4 witness: a concrete at-capacity insertion deleting the minimal
entry. -/
theorem consume_eviction_amended_witness :
    (consume 1 "x" 3 1 0 50 [("a", ⟨5, 100, none⟩)]).2
      = mapSet (mapDelete [("a", ⟨5, 100, none⟩)] "a") "x" ⟨2, 1050, none⟩ :=
  ((consume_eviction_amended 1 "x" 3 1 0 50 [("a", ⟨5, 100, none⟩)]).1 "a" 100
    (by decide) (by decide) (by decide) (by decide)).1

theorem applyOp_good (maxSize : Nat) (hms : 1 ≤ maxSize) (op : StorageOp)
    (hop : opKeyNonempty op = true) (s : Storage) (hs : goodStorage maxSize s) :
    goodStorage maxSize (applyOp maxSize s op) := by
  obtain ⟨hnd, hne, hlen⟩ := hs
  cases op with
  | statusOp k2 n2 =>
    simp only [applyOp, getStatus_snd]
    exact ⟨hnd, hne, hlen⟩
  | deleteOp k2 =>
    refine ⟨?_, ?_, ?_⟩
    · exact List.Nodup.sublist (keys_mapDelete_sublist s k2) hnd
    · intro k3 h3
      exact hne k3 ((keys_mapDelete_sublist s k2).subset h3)
    · exact le_trans (List.length_filter_le _ s) hlen
  | resetOp =>
    simp only [applyOp, resetStorage]
    refine ⟨List.nodup_nil, ?_, Nat.zero_le maxSize⟩
    intro k3 h3
    simp at h3
  | consumeOp k p d bd now0 =>
    have hk : k ≠ "" := by simpa [opKeyNonempty] using hop
    simp only [applyOp]
    cases hget : mapGet s k with
    | some e =>
      rcases consume_some_state maxSize k p d bd now0 s e hget with h | ⟨v, h⟩
      · rw [h]
        exact ⟨hnd, hne, hlen⟩
      · rw [h]
        have ha := mapGet_some_any s k e hget
        obtain ⟨hkeys2, hlen2⟩ := mapSet_present_keys s k v ha
        refine ⟨?_, ?_, ?_⟩
        · rw [hkeys2]; exact hnd
        · rw [hkeys2]; exact hne
        · rw [hlen2]; exact hlen
    | none =>
      have hkeys : ∀ q ∈ s, q.1 ≠ k := (mapGet_eq_none_iff s k).mp hget
      have hknot : k ∉ s.map Prod.fst := by
        intro hmem
        obtain ⟨q, hq, hqk⟩ := List.mem_map.mp hmem
        exact hkeys q hq hqk
      by_cases hcap : maxSize ≤ s.length
      · have hlenEq : s.length = maxSize := le_antisymm hlen hcap
        have hsne : s ≠ [] := by
          intro hnil
          rw [hnil] at hlenEq
          simp at hlenEq
          omega
        obtain ⟨⟨k0, t0⟩, hfold⟩ := oldestFold_of_ne_nil s hsne
        obtain ⟨⟨e0, he0, _⟩, _⟩ := oldestFold_spec s k0 t0 hfold
        have hk0mem : k0 ∈ s.map Prod.fst := List.mem_map_of_mem Prod.fst he0
        have hk0 : k0 ≠ "" := hne k0 hk0mem
        have hevict := evictOldest_eq_delete s k0 t0 hsne hfold hk0
        have hkeysd : ∀ q ∈ mapDelete s k0, q.1 ≠ k := by
          intro q hq
          exact hkeys q (List.mem_of_mem_filter hq)
        have hstate : (consume maxSize k p d bd now0 s).2
            = (mapDelete s k0) ++ [(k, ⟨p - 1, now0 + d * 1000, none⟩)] := by
          unfold consume
          rw [hget]
          dsimp only
          rw [decide_eq_true hcap, if_pos rfl, hevict, mapSet_absent _ _ _ hkeysd]
        rw [hstate]
        have hsubl := keys_mapDelete_sublist s k0
        have hndd := List.Nodup.sublist hsubl hnd
        have hknotd : k ∉ (mapDelete s k0).map Prod.fst := by
          intro hmem
          obtain ⟨q, hq, hqk⟩ := List.mem_map.mp hmem
          exact hkeysd q hq hqk
        refine ⟨?_, ?_, ?_⟩
        · rw [List.map_append]
          simp [List.nodup_append, hndd, hknotd]
        · rw [List.map_append]
          intro k2 hk2
          rcases List.mem_append.mp hk2 with h2 | h2
          · exact hne k2 (hsubl.subset h2)
          · simp at h2
            rw [h2]
            exact hk
        · rw [List.length_append]
          have hdel := mapDelete_length_of_mem s k0 e0 hnd he0
          simp only [List.length_cons, List.length_nil]
          omega
      · have hstate : (consume maxSize k p d bd now0 s).2
            = s ++ [(k, ⟨p - 1, now0 + d * 1000, none⟩)] := by
          unfold consume
          rw [hget]
          dsimp only
          rw [decide_eq_false hcap]
          simp only [Bool.false_eq_true, if_false]
          rw [mapSet_absent _ _ _ hkeys]
        rw [hstate]
        refine ⟨?_, ?_, ?_⟩
        · rw [List.map_append]
          simp [List.nodup_append, hnd, hknot]
        · rw [List.map_append]
          intro k2 hk2
          rcases List.mem_append.mp hk2 with h2 | h2
          · exact hne k2 h2
          · simp at h2
            rw [h2]
            exact hk
        · rw [List.length_append]
          simp only [List.length_cons, List.length_nil]
          omega

theorem applyOps_good (maxSize : Nat) (hms : 1 ≤ maxSize) (ops : List StorageOp)
    (hops : ∀ op ∈ ops, opKeyNonempty op = true) (s : Storage)
    (hs : goodStorage maxSize s) :
    goodStorage maxSize (applyOps maxSize ops s) := by
  induction ops generalizing s with
  | nil => exact hs
  | cons op ops ih =>
    exact ih (fun o ho => hops o (List.mem_cons_of_mem _ ho)) _
      (applyOp_good maxSize hms op (hops op (List.mem_cons_self _ _)) s hs)

/-- C9 counterexample: with `maxSize = 1`, consuming for the empty-string
identifier and then for `x` leaves two entries in the table — eviction is
skipped because `if (oldestKey)` is falsy on the empty string, so the
capacity bound is violated. -/
theorem storage_capacity_exceeded_with_empty_key :
    ¬ ((applyOps 1 [.consumeOp "" 3 1 0 0, .consumeOp "x" 3 1 0 0] []).length ≤ 1) := by
  decide

/-- C9 (amended): for every `maxSize ≥ 1` and every sequence of `consume`,
`getStatus`, `delete` and `reset` operations from the empty storage in
which no `consume` uses the empty-string identifier (the plugin always
prefixes identifiers with `ip:` or `key:`), the table never exceeds
`maxSize` entries. -/
theorem storage_capacity_invariant (maxSize : Nat) (hms : 1 ≤ maxSize)
    (ops : List StorageOp) (hops : ∀ op ∈ ops, opKeyNonempty op = true) :
    (applyOps maxSize ops []).length ≤ maxSize :=
  (applyOps_good maxSize hms ops hops []
    ⟨List.nodup_nil, by simp, Nat.zero_le maxSize⟩).2.2

/-- C9 witness: two insertions at `maxSize = 1` keep the table at one
entry. -/
theorem storage_capacity_invariant_witness :
    (applyOps 1 [StorageOp.consumeOp "x" 3 1 0 0, StorageOp.consumeOp "y" 3 1 0 5] []).length
      ≤ 1 :=
  storage_capacity_invariant 1 (by decide)
    [StorageOp.consumeOp "x" 3 1 0 0, StorageOp.consumeOp "y" 3 1 0 5] (by decide)

theorem all_and_distrib (l : List (List Char)) (f g : List Char → Bool) :
    l.all (fun p => f p && g p) = (l.all f && l.all g) := by
  induction l with
  | nil => rfl
  | cons p l ih =>
    simp only [List.all_cons, ih]
    cases f p <;> cases g p <;> simp

theorem splitOnChar_ne_nil (c : Char) (l : List Char) : splitOnChar c l ≠ [] := by
  induction l with
  | nil => simp [splitOnChar]
  | cons x xs ih =>
    unfold splitOnChar
    cases h : splitOnChar c xs with
    | nil => simp
    | cons a t =>
      repeat' split
      all_goals simp

theorem splitOnChar_no_sep (c : Char) (l : List Char) (h : ∀ x ∈ l, x ≠ c) :
    splitOnChar c l = [l] := by
  induction l with
  | nil => rfl
  | cons x xs ih =>
    have hx : (x == c) = false :=
      beq_eq_false_iff_ne.mpr (h x (List.mem_cons_self x xs))
    simp [splitOnChar, ih (fun y hy => h y (List.mem_cons_of_mem x hy)), hx]

theorem splitOnChar_mem (c : Char) (l : List Char) :
    ∀ x ∈ l, x = c ∨ ∃ p ∈ splitOnChar c l, x ∈ p := by
  induction l with
  | nil => intro x hx; cases hx
  | cons y ys ih =>
    intro x hx
    obtain ⟨a, t, hsplit⟩ : ∃ a t, splitOnChar c ys = a :: t := by
      cases h : splitOnChar c ys with
      | nil => exact absurd h (splitOnChar_ne_nil c ys)
      | cons a t => exact ⟨a, t, rfl⟩
    rcases List.mem_cons.mp hx with h1 | h1
    · subst h1
      by_cases hy : x = c
      · exact Or.inl hy
      · refine Or.inr ⟨x :: a, ?_, List.mem_cons_self x a⟩
        simp [splitOnChar, hsplit, beq_eq_false_iff_ne.mpr hy]
    · rcases ih x h1 with h2 | ⟨p, hp, hxp⟩
      · exact Or.inl h2
      · rw [hsplit] at hp
        rcases List.mem_cons.mp hp with h3 | h3
        · by_cases hy : y = c
          · refine Or.inr ⟨p, ?_, hxp⟩
            simp only [splitOnChar, hsplit, beq_iff_eq.mpr hy, if_pos]
            subst h3
            exact List.mem_cons_of_mem _ (List.mem_cons_self p t)
          · refine Or.inr ⟨y :: a, ?_, ?_⟩
            · simp [splitOnChar, hsplit, beq_eq_false_iff_ne.mpr hy]
            · subst h3
              exact List.mem_cons_of_mem y hxp
        · by_cases hy : y = c
          · refine Or.inr ⟨p, ?_, hxp⟩
            simp only [splitOnChar, hsplit, beq_iff_eq.mpr hy, if_pos]
            exact List.mem_cons_of_mem _ (List.mem_cons_of_mem a h3)
          · refine Or.inr ⟨p, ?_, hxp⟩
            simp only [splitOnChar, hsplit, beq_eq_false_iff_ne.mpr hy, Bool.false_eq_true,
              if_false]
            exact List.mem_cons_of_mem _ h3

theorem ipv4Shape_no_colon (l : List Char) (h4 : ipv4Shape l = true) :
    splitOnChar ':' l = [l] := by
  apply splitOnChar_no_sep
  intro x hx hxc
  rcases splitOnChar_mem '.' l x hx with h1 | ⟨p, hp, hxp⟩
  · rw [hxc] at h1
    exact absurd h1 (by decide)
  · unfold ipv4Shape at h4
    simp only [Bool.and_eq_true, List.all_eq_true] at h4
    have hdig := (h4.2 p hp).2
    have hxd : x.isDigit = true := hdig x hxp
    rw [hxc] at hxd
    exact absurd hxd (by decide)

/-- C10 counterexample: `"0000.0.0.0"` has four numeric parts, each with
value 0 (between 0 and 255), yet `isValidIp` rejects it — the regex limits
every part to at most three digits — so the claimed "exactly when" fails. -/
theorem isValidIp_rejects_claimed_numeric_quad :
    fourNumericParts "0000.0.0.0" = true ∧ isValidIp "0000.0.0.0" = false := by
  decide

/-- C10 (amended): `isValidIp` accepts a string exactly when it is a
dotted quad of four parts of one to three decimal digits each with value
at most 255, or eight colon-separated groups of at most four hex digits
(groups may be empty); in particular the compressed form `::1` is
rejected while a full eight-group address is accepted. -/
theorem isValidIp_characterization :
    (∀ s : String, isValidIp s = (dottedQuadValid s || colonHexValid s))
    ∧ isValidIp "::1" = false
    ∧ isValidIp "1:2:3:4:5:6:7:8" = true := by
  refine ⟨?_, by decide, by decide⟩
  intro s
  have hdist := all_and_distrib (splitOnChar '.' s.data)
    (fun p => decide (1 ≤ p.length) && decide (p.length ≤ 3) && p.all Char.isDigit)
    (fun p => decide (decVal p ≤ 255))
  unfold isValidIp isValidIpChars
  by_cases h4 : ipv4Shape s.data = true
  · rw [if_pos h4]
    have hnc := ipv4Shape_no_colon s.data h4
    have hcolon : colonHexValid s = false := by
      unfold colonHexValid
      dsimp only
      rw [hnc]
      rfl
    rw [hcolon, Bool.or_false]
    unfold dottedQuadValid
    dsimp only
    rw [hdist]
    unfold ipv4Shape at h4
    dsimp only at h4
    rw [Bool.and_eq_true] at h4
    obtain ⟨ha, hb⟩ := h4
    rw [ha, hb]
    simp
  · rw [if_neg h4]
    have h4f : ipv4Shape s.data = false := by
      simpa using h4
    have hdq : dottedQuadValid s = false := by
      unfold dottedQuadValid
      dsimp only
      rw [hdist]
      unfold ipv4Shape at h4f
      dsimp only at h4f
      rw [← Bool.and_assoc, h4f]
      rfl
    rw [hdq, Bool.false_or]
    rfl
